import Mathlib

/-!
Verification of the markdown chunking core of the documentation-assistant
repository (`backend/app/ingest.py`).

A Python `str` is modelled as a `List Char` (Python strings are sequences of
Unicode scalar values, exactly what `List Char` is).  Each function below is a
direct translation of the correspondingly named Python function; regular
expressions used by the source are translated to the equivalent explicit
scans, as documented at each definition.
-/

set_option maxHeartbeats 1000000
set_option maxRecDepth 100000

namespace Ingest

/-- A Python `str`: a sequence of Unicode scalar values. -/
abbrev Str := List Char

/-- The ASCII whitespace characters removed by Python's `str.strip()`,
`str.lstrip()` and `str.rstrip()` (documents are modelled over
ASCII-compatible text, so the Unicode-only space characters never occur). -/
def isWs (c : Char) : Bool :=
  c = ' ' || c = '\t' || c = '\n' || c = '\r' || c = '\x0b' || c = '\x0c'

/-- Python `s.lstrip()`: drop leading whitespace. -/
def lstrip (s : Str) : Str := s.dropWhile isWs

/-- Python `s.rstrip()`: drop trailing whitespace. -/
def rstrip (s : Str) : Str := s.rdropWhile isWs

/-- Python `s.strip()`: drop whitespace at both ends. -/
def strip (s : Str) : Str := rstrip (lstrip s)

/-- Prepend `x` onto the first element of a list of strings (creating a
one-element list when there is none).  Helper for the splitting scans. -/
def prependH (x : Str) : List Str → List Str
  | [] => [x]
  | l :: ls => (x ++ l) :: ls

/-- Scan for `re.split(r"\n\x7b2,\x7d", s)`: `k` counts the newline characters
read immediately before the current position and not yet assigned.  A maximal
run of two or more newlines is a separator; shorter runs stay in the
surrounding part.  The head of the returned list is the remainder of the
part currently being built. -/
def spAux : Nat → Str → List Str
  | k, [] => if 2 ≤ k then [[], []] else [List.replicate k '\n']
  | k, c :: rest =>
    if c = '\n' then spAux (k + 1) rest
    else if 2 ≤ k then [] :: prependH [c] (spAux 0 rest)
    else prependH (List.replicate k '\n' ++ [c]) (spAux 0 rest)

/-- Python `re.split(r"\n\x7b2,\x7d", s)` from `_split_section_by_paragraphs`:
split on maximal runs of at least two consecutive newline characters. -/
def splitParas (s : Str) : List Str := spAux 0 s

/-- Python `"sep".join(parts)`. -/
def joinSep (sep : Str) : List Str → Str
  | [] => []
  | [x] => x
  | x :: y :: xs => x ++ sep ++ joinSep sep (y :: xs)

/-- A blank line separator, Python `"\n\n"`. -/
def nl2 : Str := ['\n', '\n']

/-- Join lines with single newlines (inverse of splitting on `'\n'`). -/
def joinLines (ls : List Str) : Str := joinSep ['\n'] ls

/-- Whether a whole line matches the section-boundary regex `^(## .+)$`
(multiline): the line starts with `"## "` and has at least one further
character.  Lines contain no `'\n'`, so `.+` reaching `$` is exactly
`3 < length`. -/
def isHeadingLine (l : Str) : Bool :=
  "## ".toList.isPrefixOf l && decide (3 < l.length)

/-- The tail of `_split_by_headings`: given the most recent heading line, the
(reversed) accumulated body lines, and the remaining lines, produce the
`(heading, body)` pairs.  Headings and bodies are stripped exactly as in the
source (`parts[i].strip()`). -/
def splitSectionsAux (heading : Str) (acc : List Str) : List Str → List (Str × Str)
  | [] => [(strip heading, strip (joinLines acc.reverse))]
  | l :: ls =>
    if isHeadingLine l then
      (strip heading, strip (joinLines acc.reverse)) :: splitSectionsAux l [] ls
    else
      splitSectionsAux heading (l :: acc) ls

/-- Python `_split_by_headings(text)`: split markdown into `(heading, body)`
pairs on `## ` boundaries via `re.compile(r"^(## .+)$", re.MULTILINE).split`.
The multiline regex matches exactly the whole lines satisfying
`isHeadingLine`, so the split is performed line by line (`re.MULTILINE`
anchors only at `'\n'`); the surrounding newlines that the regex leaves in
the non-heading parts are removed by the subsequent `.strip()` calls, so
joining the intervening lines with `'\n'` and stripping is equivalent.
The preamble before the first heading is included only if non-empty after
stripping. -/
def _split_by_headings (text : Str) : List (Str × Str) :=
  let ls := List.splitOn '\n' text
  let pre := ls.takeWhile (fun l => !isHeadingLine l)
  let preamble := strip (joinLines pre)
  let tailSections :=
    match ls.dropWhile (fun l => !isHeadingLine l) with
    | [] => []
    | l :: rest => splitSectionsAux l [] rest
  (if preamble ≠ [] then [(([] : Str), preamble)] else []) ++ tailSections

/-- The line-boundary characters of Python `str.splitlines` (besides the
`"\r\n"` pair, which is handled separately). -/
def pyIsLineBreak (c : Char) : Bool :=
  c = '\n' || c = '\r' || c = '\x0b' || c = '\x0c' || c = '\x1c' || c = '\x1d' ||
  c = '\x1e' || c = '\x85' || c = '\u2028' || c = '\u2029'

/-- Python `s.splitlines()`. -/
def pySplitlines : Str → List Str
  | [] => []
  | '\r' :: '\n' :: rest => [] :: pySplitlines rest
  | c :: rest =>
    if pyIsLineBreak c then [] :: pySplitlines rest
    else prependH [c] (pySplitlines rest)

/-- Python `_extract_title(text)`: return the first stripped line that starts
with `"# "` but not `"## "`, or the empty string. -/
def _extract_title (text : Str) : Str :=
  match (pySplitlines text).find?
      (fun l => "# ".toList.isPrefixOf (strip l) && !("## ".toList.isPrefixOf (strip l))) with
  | some l => strip l
  | none => []

/-- The context block built at the top of `_split_section_by_paragraphs`:
title line plus blank line (if the title is non-empty) followed by the
heading line plus blank line (if the heading is non-empty). -/
def pfxOf (title heading : Str) : Str :=
  (if title ≠ [] then title ++ nl2 else []) ++ (if heading ≠ [] then heading ++ nl2 else [])

/-- One iteration of the paragraph loop of `_split_section_by_paragraphs`:
the state is the pair `(chunks, current)`. -/
def subStep (pfx : Str) (max_chars : Nat) (acc : List Str × Str) (para0 : Str) :
    List Str × Str :=
  let para := strip para0
  if para = [] then acc
  else
    let candidate := acc.2 ++ para ++ nl2
    if candidate.length ≤ max_chars then (acc.1, candidate)
    else if strip acc.2 ≠ strip pfx then (acc.1 ++ [strip acc.2], pfx ++ para ++ nl2)
    else (acc.1, pfx ++ para ++ nl2)

/-- Python `_split_section_by_paragraphs(section_text, title, heading,
max_chars)`: split an oversized section into sub-chunks at paragraph
boundaries, prefixing each sub-chunk with the title/heading block. -/
def _split_section_by_paragraphs (section_text title heading : Str) (max_chars : Nat) :
    List Str :=
  let pfx := pfxOf title heading
  let res := (splitParas section_text).foldl (subStep pfx max_chars) ([], pfx)
  let chunks :=
    if strip res.2 ≠ [] ∧ strip res.2 ≠ strip pfx then res.1 ++ [strip res.2] else res.1
  if chunks ≠ [] then chunks else [strip section_text]

/-- A chunk as produced by `chunk_markdown`: the Python dict with keys
`text` and `section` (the latter is a reserved word in Lean, hence
`sectionLabel`). -/
structure Chunk where
  text : Str
  sectionLabel : Str
deriving DecidableEq

/-- The `section` label of the Python loop:
`heading.lstrip("# ").strip() if heading else "(intro)"`. -/
def sectionName (heading : Str) : Str :=
  if heading ≠ [] then strip (heading.dropWhile (fun c => c = '#' || c = ' '))
  else "(intro)".toList

/-- The `parts` list assembled inside `chunk_markdown`'s loop. -/
def partsOf (title heading body : Str) : List Str :=
  (if title ≠ [] ∧ heading ≠ [] then [title] else []) ++
  (if heading ≠ [] then [heading] else []) ++
  (if body ≠ [] then [body] else [])

/-- `full_text = "\n\n".join(parts)` of `chunk_markdown`'s loop. -/
def fullTextOf (title heading body : Str) : Str :=
  joinSep nl2 (partsOf title heading body)

/-- The body of `chunk_markdown`'s `for heading, body in sections` loop for
one section. -/
def assembleSection (title : Str) (max_chars : Nat) (heading body : Str) : List Chunk :=
  let sname := sectionName heading
  let full_text := fullTextOf title heading body
  if full_text.length ≤ max_chars then [⟨full_text, sname⟩]
  else (_split_section_by_paragraphs body title heading max_chars).map (fun t => ⟨t, sname⟩)

/-- Python `chunk_markdown(text, max_chars)`: split a markdown document into
heading-aware chunks. -/
def chunk_markdown (text : Str) (max_chars : Nat) : List Chunk :=
  (_split_by_headings text).flatMap
    (fun hb => assembleSection (_extract_title text) max_chars hb.1 hb.2)

/-- Decimal digits of `n`, least significant first: the characters of
Python `str(i)` reversed. -/
def toDigitsRev (n : Nat) : List Char :=
  if h : n < 10 then [Char.ofNat (48 + n)]
  else Char.ofNat (48 + n % 10) :: toDigitsRev (n / 10)
decreasing_by exact Nat.div_lt_self (by omega) (by omega)

/-- Python `str(i)` for a natural number, as used by the f-string
interpolation in `ingest`. -/
def natRepr (n : Nat) : Str := (toDigitsRev n).reverse

/-- The identifier `f"(rel)::chunk(i)"` built by `ingest` for chunk `i` of the
document with relative path `rel`. -/
def mkChunkId (rel : Str) (i : Nat) : Str := rel ++ "::chunk".toList ++ natRepr i

/-- The chunk identifiers produced by one ingestion run over `docs`, a list
of `(relative_path, content)` pairs, in order: for each document the indices
`0..n-1` of its `chunk_markdown` output. -/
def chunkIds (docs : List (Str × Str)) (max_chars : Nat) : List Str :=
  docs.flatMap
    (fun d => (List.range (chunk_markdown d.2 max_chars).length).map (mkChunkId d.1))

/-! Auxiliary definitions used only to state and prove properties of the
functions above. -/

/-- The number of non-whitespace characters of a string (a quantity that
`strip` preserves). -/
def nws (s : Str) : Nat := s.countP (fun c => !isWs c)

/-- The stripped non-empty paragraphs of a paragraph list: exactly those the
loop of `_split_section_by_paragraphs` does not skip. -/
def goodParasL (ps : List Str) : List Str :=
  (ps.map strip).filter (fun p => !p.isEmpty)

/-- The stripped non-empty paragraphs of a section body. -/
def goodParas (s : Str) : List Str := goodParasL (splitParas s)

/-- The text accumulated in `current` after the paragraphs of `g` have been
appended to the context block `pfx`: each paragraph is followed by a blank
line. -/
def joinNl (g : List Str) : Str := (g.map (fun p => p ++ nl2)).flatten

/-- The `current` buffer of `_split_section_by_paragraphs` holding the
paragraphs `g`. -/
def mkCur (pfx : Str) (g : List Str) : Str := pfx ++ joinNl g

/-- The sub-chunk flushed from a buffer holding the paragraphs `g`. -/
def mkChunk (pfx : Str) (g : List Str) : Str := strip (mkCur pfx g)

/-- A paragraph as seen by the accumulation loop: already stripped, and
non-empty. -/
def GoodPara (p : Str) : Prop := strip p = p ∧ p ≠ []

/-- A completed group of paragraphs flushed as one sub-chunk: non-empty, made
of good paragraphs, and either its buffer fit the budget or it is a single
paragraph. -/
def GoodGroup (pfx : Str) (max_chars : Nat) (q : List Str) : Prop :=
  q ≠ [] ∧ (∀ p ∈ q, GoodPara p) ∧ ((mkCur pfx q).length ≤ max_chars ∨ ∃ p, q = [p])

/-- The document has no second-level heading line (no line matching the
section-boundary regex `^(## .+)$`). -/
def noHeadings (text : Str) : Prop :=
  ∀ l ∈ List.splitOn '\n' text, isHeadingLine l = false

/-- The value of a little-endian list of decimal digit characters; used to
invert `toDigitsRev`. -/
def valRev : List Char → Nat
  | [] => 0
  | c :: cs => (c.toNat - 48) + 10 * valRev cs

/-! Basic properties of `lstrip`, `rstrip` and `strip`. -/

theorem lstrip_eq_nil_iff {s : Str} : lstrip s = [] ↔ ∀ c ∈ s, isWs c := by
  simp [lstrip, List.dropWhile_eq_nil_iff]

theorem rstrip_eq_nil_iff {s : Str} : rstrip s = [] ↔ ∀ c ∈ s, isWs c := by
  simp [rstrip, List.rdropWhile_eq_nil_iff]

theorem rstrip_nil : rstrip [] = [] := rfl

theorem strip_eq_nil_iff {s : Str} : strip s = [] ↔ ∀ c ∈ s, isWs c := by
  constructor
  · intro h c hc
    have h2 : ∀ c ∈ lstrip s, isWs c := rstrip_eq_nil_iff.mp h
    have hc' : c ∈ s.takeWhile isWs ++ s.dropWhile isWs := by
      rw [List.takeWhile_append_dropWhile]; exact hc
    rcases List.mem_append.mp hc' with h3 | h3
    · exact List.mem_takeWhile_imp h3
    · exact h2 c h3
  · intro h
    have hl : lstrip s = [] := lstrip_eq_nil_iff.mpr h
    simp [strip, hl, rstrip_nil]

theorem nws_append (a b : Str) : nws (a ++ b) = nws a + nws b := by
  simp [nws]

theorem nws_dropWhile (s : Str) : nws (s.dropWhile isWs) = nws s := by
  conv_rhs => rw [← List.takeWhile_append_dropWhile isWs s]
  rw [nws_append]
  have h0 : nws (s.takeWhile isWs) = 0 := by
    refine List.countP_eq_zero.mpr (fun a ha => ?_)
    simp [List.mem_takeWhile_imp ha]
  omega

theorem nws_reverse (s : Str) : nws s.reverse = nws s := by
  simp [nws]

theorem nws_lstrip (s : Str) : nws (lstrip s) = nws s := nws_dropWhile s

theorem nws_rstrip (s : Str) : nws (rstrip s) = nws s := by
  unfold rstrip List.rdropWhile
  rw [nws_reverse, nws_dropWhile, nws_reverse]

theorem nws_strip (s : Str) : nws (strip s) = nws s := by
  rw [strip, nws_rstrip, nws_lstrip]

theorem nws_pos_iff {s : Str} : 0 < nws s ↔ ∃ c ∈ s, ¬ isWs c := by
  simp [nws, List.countP_pos_iff]

theorem ne_nil_of_nws_pos {s : Str} (h : 0 < nws s) : s ≠ [] := by
  intro hn
  simp [hn, nws] at h

theorem strip_ne_nil_of_nws {s : Str} (h : 0 < nws s) : strip s ≠ [] :=
  ne_nil_of_nws_pos (by rw [nws_strip]; exact h)

theorem lstrip_eq_self_of_strip_eq {s : Str} (h : strip s = s) : lstrip s = s := by
  have h1 : lstrip s <:+ s := List.dropWhile_suffix isWs
  have h2 : strip s <+: lstrip s := List.rdropWhile_prefix isWs (lstrip s)
  refine h1.eq_of_length (Nat.le_antisymm h1.length_le ?_)
  calc s.length = (strip s).length := by rw [h]
    _ ≤ (lstrip s).length := h2.length_le

theorem rstrip_eq_self_of_strip_eq {s : Str} (h : strip s = s) : rstrip s = s := by
  have hl : lstrip s = s := lstrip_eq_self_of_strip_eq h
  calc rstrip s = rstrip (lstrip s) := by rw [hl]
    _ = strip s := rfl
    _ = s := h

theorem exists_head_of_stripped {s : Str} (h : strip s = s) (hn : s ≠ []) :
    ∃ c t, s = c :: t ∧ isWs c = false := by
  have hl := lstrip_eq_self_of_strip_eq h
  cases s with
  | nil => exact absurd rfl hn
  | cons c t =>
    refine ⟨c, t, rfl, ?_⟩
    by_contra hc
    have hc' : isWs c = true := by
      cases hcc : isWs c
      · exact absurd hcc hc
      · rfl
    have h2 : lstrip (c :: t) = lstrip t := List.dropWhile_cons_of_pos hc'
    have h3 : (lstrip t).length ≤ t.length := (List.dropWhile_suffix isWs).length_le
    rw [hl] at h2
    have h4 : (c :: t).length = t.length + 1 := rfl
    rw [h2] at h4
    omega

theorem exists_last_of_stripped {s : Str} (h : strip s = s) (hn : s ≠ []) :
    ∃ t c, s = t ++ [c] ∧ isWs c = false := by
  have hr : rstrip s = s := rstrip_eq_self_of_strip_eq h
  have hlast : ¬ isWs (s.getLast hn) := by
    have := List.rdropWhile_eq_self_iff.mp hr hn
    exact this
  refine ⟨s.dropLast, s.getLast hn, (List.dropLast_append_getLast hn).symm, ?_⟩
  cases hcc : isWs (s.getLast hn)
  · rfl
  · exact absurd hcc hlast

theorem lstrip_append (a b : Str) :
    lstrip (a ++ b) = if lstrip a = [] then lstrip b else lstrip a ++ b := by
  simp only [lstrip, List.dropWhile_append, List.isEmpty_iff]

theorem rstrip_append (a b : Str) :
    rstrip (a ++ b) = if rstrip b = [] then rstrip a else a ++ rstrip b := by
  have hiff : rstrip b = [] ↔ (b.reverse.dropWhile isWs).isEmpty = true := by
    rw [List.isEmpty_iff, rstrip, List.rdropWhile, List.reverse_eq_nil_iff]
  by_cases hb : rstrip b = []
  · rw [if_pos hb]
    show ((a ++ b).reverse.dropWhile isWs).reverse = rstrip a
    rw [List.reverse_append, List.dropWhile_append, if_pos (hiff.mp hb)]
    rfl
  · rw [if_neg hb]
    show ((a ++ b).reverse.dropWhile isWs).reverse = a ++ rstrip b
    rw [List.reverse_append, List.dropWhile_append,
      if_neg (fun hh => hb (hiff.mpr hh)), List.reverse_append, List.reverse_reverse]
    rfl

theorem strip_idem (s : Str) : strip (strip s) = strip s := by
  have h1 : lstrip (strip s) = strip s := by
    rcases eq_or_ne (strip s) [] with h | h
    · rw [h]; rfl
    · have hpre : strip s <+: lstrip s := List.rdropWhile_prefix isWs (lstrip s)
      have hls : lstrip s ≠ [] := by
        intro h0
        exact h (by simp [strip, h0, rstrip_nil])
      have hhead : (strip s).head h = (lstrip s).head hls := hpre.head h
      have hnw : isWs ((lstrip s).head hls) = false := List.head_dropWhile_not isWs s hls
      have hnw2 : isWs ((strip s).head h) = false := by rw [hhead]; exact hnw
      conv_lhs => rw [← List.head_cons_tail (strip s) h]
      rw [lstrip, List.dropWhile_cons_of_neg (by simp [hnw2]), List.head_cons_tail]
  calc strip (strip s) = rstrip (strip s) := by rw [strip, h1]
    _ = rstrip (rstrip (lstrip s)) := rfl
    _ = rstrip (lstrip s) := List.rdropWhile_idempotent isWs (lstrip s)
    _ = strip s := rfl

theorem strip_length_le (s : Str) : (strip s).length ≤ s.length :=
  Nat.le_trans (List.rdropWhile_prefix isWs (lstrip s)).length_le
    (List.dropWhile_suffix isWs).length_le

/-! Properties of `joinSep`, `joinNl` and `mkCur`. -/

theorem joinSep_ne_nil {sep : Str} : ∀ {parts : List Str}, parts ≠ [] →
    (∀ p ∈ parts, p ≠ []) → joinSep sep parts ≠ []
  | [], hne, _ => absurd rfl hne
  | [x], _, h => by simpa [joinSep] using h x (by simp)
  | x :: y :: xs, _, h => by
    have hx : x ≠ [] := h x (by simp)
    simp only [joinSep]
    intro hh
    rw [List.append_eq_nil, List.append_eq_nil] at hh
    exact hx hh.1.1

theorem joinSep_cons (sep x : Str) (rest : List Str) :
    ∃ r, joinSep sep (x :: rest) = x ++ r := by
  cases rest with
  | nil => exact ⟨[], by simp [joinSep]⟩
  | cons y xs => exact ⟨sep ++ joinSep sep (y :: xs), by simp [joinSep, List.append_assoc]⟩

theorem lstrip_append_of_ne {a : Str} (b : Str) (ha : lstrip a = a) (hne : a ≠ []) :
    lstrip (a ++ b) = a ++ b := by
  rw [lstrip_append, ha, if_neg hne]

theorem rstrip_append_of_ne (a : Str) {b : Str} (hb : rstrip b = b) (hne : b ≠ []) :
    rstrip (a ++ b) = a ++ b := by
  rw [rstrip_append, hb, if_neg hne]

theorem lstrip_joinSep {sep : Str} {parts : List Str}
    (h : ∀ p ∈ parts, strip p = p ∧ p ≠ []) :
    lstrip (joinSep sep parts) = joinSep sep parts := by
  cases parts with
  | nil => rfl
  | cons x rest =>
    obtain ⟨r, hr⟩ := joinSep_cons sep x rest
    have hx := h x (by simp)
    rw [hr]
    exact lstrip_append_of_ne r (lstrip_eq_self_of_strip_eq hx.1) hx.2

theorem rstrip_joinSep {sep : Str} : ∀ {parts : List Str},
    (∀ p ∈ parts, strip p = p ∧ p ≠ []) →
    rstrip (joinSep sep parts) = joinSep sep parts
  | [], _ => rfl
  | [x], h => by
    have hx := h x (by simp)
    simpa [joinSep] using rstrip_eq_self_of_strip_eq hx.1
  | x :: y :: xs, h => by
    have ih : rstrip (joinSep sep (y :: xs)) = joinSep sep (y :: xs) :=
      rstrip_joinSep (fun p hp => h p (List.mem_cons_of_mem _ hp))
    have hJne : joinSep sep (y :: xs) ≠ [] :=
      joinSep_ne_nil (List.cons_ne_nil _ _)
        (fun p hp => (h p (List.mem_cons_of_mem _ hp)).2)
    simp only [joinSep]
    rw [rstrip_append_of_ne (x ++ sep) ih hJne]

theorem strip_joinSep {sep : Str} {parts : List Str}
    (h : ∀ p ∈ parts, strip p = p ∧ p ≠ []) :
    strip (joinSep sep parts) = joinSep sep parts := by
  rw [strip, lstrip_joinSep h, rstrip_joinSep h]

theorem infix_joinSep {sep p : Str} : ∀ {parts : List Str}, p ∈ parts →
    p <:+: joinSep sep parts
  | [], h => absurd h (List.not_mem_nil p)
  | [x], h => by
    rcases List.mem_singleton.mp h with rfl
    simp [joinSep]
  | x :: y :: xs, h => by
    rcases List.mem_cons.mp h with rfl | h2
    · simp only [joinSep]
      rw [List.append_assoc]
      exact (List.prefix_append p _).isInfix
    · have ih : p <:+: joinSep sep (y :: xs) := infix_joinSep h2
      simp only [joinSep]
      exact ih.trans (List.suffix_append (x ++ sep) _).isInfix

theorem joinNl_eq : ∀ {g : List Str}, g ≠ [] → joinNl g = joinSep nl2 g ++ nl2
  | [], hg => absurd rfl hg
  | [p], _ => by simp [joinNl, joinSep]
  | p :: q :: gs, _ => by
    have ih := joinNl_eq (g := q :: gs) (List.cons_ne_nil _ _)
    simp only [joinNl, List.map_cons, List.flatten_cons] at ih ⊢
    rw [ih, joinSep]
    simp [List.append_assoc]

theorem mkCur_nil (pfx : Str) : mkCur pfx [] = pfx := by
  simp [mkCur, joinNl]

theorem mkCur_single (pfx p : Str) : mkCur pfx [p] = pfx ++ p ++ nl2 := by
  simp [mkCur, joinNl, List.append_assoc]

theorem mkCur_snoc (pfx : Str) (g : List Str) (p : Str) :
    mkCur pfx (g ++ [p]) = mkCur pfx g ++ p ++ nl2 := by
  simp [mkCur, joinNl, List.append_assoc]

theorem strip_mkCur (pfx : Str) {g : List Str} (hg : g ≠ [])
    (h : ∀ p ∈ g, GoodPara p) :
    strip (mkCur pfx g) = lstrip pfx ++ joinSep nl2 g := by
  have hGP : ∀ p ∈ g, strip p = p ∧ p ≠ [] := h
  have hJ : joinNl g = joinSep nl2 g ++ nl2 := joinNl_eq hg
  have hls : lstrip (joinSep nl2 g) = joinSep nl2 g := lstrip_joinSep hGP
  have hrs : rstrip (joinSep nl2 g) = joinSep nl2 g := rstrip_joinSep hGP
  have hJne : joinSep nl2 g ≠ [] := joinSep_ne_nil hg (fun p hp => (hGP p hp).2)
  have hnl2 : rstrip nl2 = [] := by decide
  have h1 : lstrip (pfx ++ (joinSep nl2 g ++ nl2))
      = lstrip pfx ++ (joinSep nl2 g ++ nl2) := by
    rw [lstrip_append]
    by_cases hp : lstrip pfx = []
    · rw [if_pos hp, hp, List.nil_append,
        lstrip_append_of_ne nl2 hls hJne]
    · rw [if_neg hp]
  have h2 : rstrip (lstrip pfx ++ (joinSep nl2 g ++ nl2))
      = lstrip pfx ++ joinSep nl2 g := by
    rw [show lstrip pfx ++ (joinSep nl2 g ++ nl2)
        = (lstrip pfx ++ joinSep nl2 g) ++ nl2 by rw [List.append_assoc]]
    rw [rstrip_append, if_pos hnl2]
    have hc : ¬ (rstrip (joinSep nl2 g) = []) := by rw [hrs]; exact hJne
    rw [rstrip_append, if_neg hc, hrs]
  unfold strip mkCur
  rw [hJ, h1, h2]

theorem nws_pos_of_goodPara {p : Str} (h : GoodPara p) : 0 < nws p := by
  obtain ⟨c, t, rfl, hc⟩ := exists_head_of_stripped h.1 h.2
  exact nws_pos_iff.mpr ⟨c, by simp, by simp [hc]⟩

theorem nws_mkCur_lt (pfx : Str) : ∀ {g : List Str}, g ≠ [] →
    (∀ p ∈ g, GoodPara p) → nws pfx < nws (mkCur pfx g)
  | [], hg, _ => absurd rfl hg
  | p :: gs, _, h => by
    have hp : 0 < nws p := nws_pos_of_goodPara (h p (by simp))
    have hs : mkCur pfx (p :: gs) = pfx ++ ((p ++ nl2) ++ joinNl gs) := by
      simp [mkCur, joinNl]
    rw [hs, nws_append, nws_append, nws_append]
    omega

theorem strip_mkCur_ne {pfx : Str} {g : List Str} (hg : g ≠ [])
    (h : ∀ p ∈ g, GoodPara p) : strip (mkCur pfx g) ≠ strip pfx := by
  intro heq
  have h1 : nws (strip (mkCur pfx g)) = nws (strip pfx) := by rw [heq]
  rw [nws_strip, nws_strip] at h1
  have := nws_mkCur_lt pfx hg h
  omega

theorem strip_mkCur_ne_nil {pfx : Str} {g : List Str} (hg : g ≠ [])
    (h : ∀ p ∈ g, GoodPara p) : strip (mkCur pfx g) ≠ [] := by
  apply strip_ne_nil_of_nws
  have := nws_mkCur_lt pfx hg h
  omega

/-! The paragraphs of `splitParas` cover every non-newline character. -/

theorem mem_prependH_left {c : Char} {x : Str} (l : List Str) (hc : c ∈ x) :
    ∃ part ∈ prependH x l, c ∈ part := by
  cases l with
  | nil => exact ⟨x, by simp [prependH], hc⟩
  | cons a as => exact ⟨x ++ a, by simp [prependH], by simp [hc]⟩

theorem mem_prependH_right {c : Char} {x : Str} {l : List Str}
    (h : ∃ part ∈ l, c ∈ part) : ∃ part ∈ prependH x l, c ∈ part := by
  obtain ⟨part, hp, hc⟩ := h
  cases l with
  | nil => simp at hp
  | cons a as =>
    rcases List.mem_cons.mp hp with rfl | h2
    · exact ⟨x ++ part, by simp [prependH], by simp [hc]⟩
    · exact ⟨part, by simp [prependH, h2], hc⟩

theorem mem_spAux {c : Char} (hc : c ≠ '\n') :
    ∀ (s : Str) (k : Nat), c ∈ s → ∃ part ∈ spAux k s, c ∈ part
  | [], _, h => absurd h (List.not_mem_nil c)
  | a :: rest, k, h => by
    by_cases ha : a = '\n'
    · subst ha
      rcases List.mem_cons.mp h with rfl | h2
      · exact absurd rfl hc
      · simpa [spAux] using mem_spAux hc rest (k + 1) h2
    · rcases List.mem_cons.mp h with rfl | h2
      · by_cases hk : 2 ≤ k
        · simp only [spAux, if_neg ha, if_pos hk]
          obtain ⟨part, hp, hcp⟩ :=
            mem_prependH_left (c := c) (x := [c]) (spAux 0 rest) (by simp)
          exact ⟨part, by simp [hp], hcp⟩
        · simp only [spAux, if_neg ha, if_neg hk]
          exact mem_prependH_left _ (by simp)
      · by_cases hk : 2 ≤ k
        · simp only [spAux, if_neg ha, if_pos hk]
          obtain ⟨part, hp, hcp⟩ :=
            mem_prependH_right (x := [a]) (mem_spAux hc rest 0 h2)
          exact ⟨part, by simp [hp], hcp⟩
        · simp only [spAux, if_neg ha, if_neg hk]
          exact mem_prependH_right (mem_spAux hc rest 0 h2)

theorem strip_eq_nil_of_goodParas_nil {s : Str} (h : goodParas s = []) :
    strip s = [] := by
  rw [strip_eq_nil_iff]
  intro c hc
  by_contra hws
  have hc' : c ≠ '\n' := by
    intro hcn
    subst hcn
    exact hws (by decide)
  obtain ⟨part, hp, hcp⟩ := mem_spAux hc' s 0 hc
  have hsp : strip part ≠ [] :=
    strip_ne_nil_of_nws (nws_pos_iff.mpr ⟨c, hcp, hws⟩)
  have hmem : strip part ∈ goodParas s := by
    refine List.mem_filter.mpr ⟨List.mem_map_of_mem strip hp, ?_⟩
    simpa using hsp
  rw [h] at hmem
  simp at hmem

theorem goodParasL_cons (p : Str) (ps : List Str) :
    goodParasL (p :: ps) =
      if strip p = [] then goodParasL ps else strip p :: goodParasL ps := by
  by_cases h : strip p = []
  · simp [goodParasL, h]
  · simp [goodParasL, List.filter_cons, h]

/-! The accumulation loop of `_split_section_by_paragraphs`. -/

theorem subStep_eq (pfx : Str) (max_chars : Nat) (cs : List Str) (cur : Str)
    (para : Str) :
    subStep pfx max_chars (cs, cur) para =
      if strip para = [] then (cs, cur)
      else if (cur ++ strip para ++ nl2).length ≤ max_chars then
        (cs, cur ++ strip para ++ nl2)
      else if strip cur ≠ strip pfx then
        (cs ++ [strip cur], pfx ++ strip para ++ nl2)
      else (cs, pfx ++ strip para ++ nl2) := rfl

theorem foldl_subStep_spec (pfx : Str) (max_chars : Nat) :
    ∀ (ps : List Str) (cs : List Str) (g : List Str),
      (∀ p ∈ g, GoodPara p) →
      (g ≠ [] → (mkCur pfx g).length ≤ max_chars ∨ ∃ p, g = [p]) →
      ∃ (ds : List (List Str)) (g' : List Str),
        List.foldl (subStep pfx max_chars) (cs, mkCur pfx g) ps
          = (cs ++ ds.map (mkChunk pfx), mkCur pfx g') ∧
        (∀ q ∈ ds, GoodGroup pfx max_chars q) ∧
        (∀ p ∈ g', GoodPara p) ∧
        (g' ≠ [] → (mkCur pfx g').length ≤ max_chars ∨ ∃ p, g' = [p]) ∧
        ds.flatten ++ g' = g ++ goodParasL ps ∧
        (g' = [] ↔ g = [] ∧ goodParasL ps = []) := by
  intro ps
  induction ps with
  | nil =>
    intro cs g hgood hsize
    exact ⟨[], g, by simp, by simp, hgood, hsize, by simp [goodParasL],
      by simp [goodParasL]⟩
  | cons para ps ih =>
    intro cs g hgood hsize
    rw [List.foldl_cons]
    by_cases hpe : strip para = []
    · have hstep : subStep pfx max_chars (cs, mkCur pfx g) para = (cs, mkCur pfx g) := by
        rw [subStep_eq, if_pos hpe]
      rw [hstep]
      obtain ⟨ds, g', heq, hds, hg1, hg2, hflat, hiff⟩ := ih cs g hgood hsize
      refine ⟨ds, g', heq, hds, hg1, hg2, ?_, ?_⟩
      · rw [hflat, goodParasL_cons, if_pos hpe]
      · rw [hiff, goodParasL_cons, if_pos hpe]
    · have hGP : GoodPara (strip para) := ⟨strip_idem para, hpe⟩
      by_cases hfit : (mkCur pfx g ++ strip para ++ nl2).length ≤ max_chars
      · -- the paragraph fits: commit the candidate buffer
        have hstep : subStep pfx max_chars (cs, mkCur pfx g) para
            = (cs, mkCur pfx (g ++ [strip para])) := by
          rw [subStep_eq, if_neg hpe, if_pos hfit, mkCur_snoc]
        rw [hstep]
        have hgood2 : ∀ p ∈ g ++ [strip para], GoodPara p := by
          intro p hp
          rcases List.mem_append.mp hp with h2 | h2
          · exact hgood p h2
          · rw [List.mem_singleton.mp h2]; exact hGP
        have hsize2 : g ++ [strip para] ≠ [] →
            (mkCur pfx (g ++ [strip para])).length ≤ max_chars ∨
              ∃ p, g ++ [strip para] = [p] :=
          fun _ => Or.inl (by rw [mkCur_snoc]; exact hfit)
        obtain ⟨ds, g', heq, hds, hg1, hg2, hflat, hiff⟩ :=
          ih cs (g ++ [strip para]) hgood2 hsize2
        refine ⟨ds, g', heq, hds, hg1, hg2, ?_, ?_⟩
        · rw [hflat, goodParasL_cons, if_neg hpe, List.append_assoc,
            List.singleton_append]
        · constructor
          · intro hg'
            rcases hiff.mp hg' with ⟨habs, _⟩
            exact absurd habs (by simp)
          · rintro ⟨-, habs⟩
            rw [goodParasL_cons, if_neg hpe] at habs
            exact absurd habs (by simp)
      · by_cases hgnil : g = []
        · -- buffer holds only the context block: no flush, restart from it
          subst hgnil
          have hne : ¬ (strip (mkCur pfx []) ≠ strip pfx) := by
            rw [mkCur_nil]
            simp
          have hstep : subStep pfx max_chars (cs, mkCur pfx []) para
              = (cs, mkCur pfx [strip para]) := by
            rw [subStep_eq, if_neg hpe, if_neg hfit, if_neg hne, mkCur_single]
          rw [hstep]
          have hgood2 : ∀ p ∈ [strip para], GoodPara p := by
            intro p hp
            rw [List.mem_singleton.mp hp]
            exact hGP
          obtain ⟨ds, g', heq, hds, hg1, hg2, hflat, hiff⟩ :=
            ih cs [strip para] hgood2 (fun _ => Or.inr ⟨strip para, rfl⟩)
          refine ⟨ds, g', heq, hds, hg1, hg2, ?_, ?_⟩
          · rw [hflat, goodParasL_cons, if_neg hpe, List.nil_append,
              List.singleton_append]
          · constructor
            · intro hg'
              rcases hiff.mp hg' with ⟨habs, _⟩
              exact absurd habs (by simp)
            · rintro ⟨-, habs⟩
              rw [goodParasL_cons, if_neg hpe] at habs
              exact absurd habs (by simp)
        · -- flush the committed buffer, restart from the context block
          have hne : strip (mkCur pfx g) ≠ strip pfx := strip_mkCur_ne hgnil hgood
          have hstep : subStep pfx max_chars (cs, mkCur pfx g) para
              = (cs ++ [mkChunk pfx g], mkCur pfx [strip para]) := by
            rw [subStep_eq, if_neg hpe, if_neg hfit, if_pos hne, mkCur_single]
            rfl
          rw [hstep]
          have hgood2 : ∀ p ∈ [strip para], GoodPara p := by
            intro p hp
            rw [List.mem_singleton.mp hp]
            exact hGP
          obtain ⟨ds, g', heq, hds, hg1, hg2, hflat, hiff⟩ :=
            ih (cs ++ [mkChunk pfx g]) [strip para] hgood2
              (fun _ => Or.inr ⟨strip para, rfl⟩)
          refine ⟨g :: ds, g', ?_, ?_, hg1, hg2, ?_, ?_⟩
          · rw [heq, List.map_cons, List.append_assoc, List.singleton_append]
          · intro q hq
            rcases List.mem_cons.mp hq with rfl | h2
            · exact ⟨hgnil, hgood, hsize hgnil⟩
            · exact hds q h2
          · rw [List.flatten_cons, List.append_assoc, hflat, goodParasL_cons,
              if_neg hpe, List.singleton_append]
          · constructor
            · intro hg'
              rcases hiff.mp hg' with ⟨habs, _⟩
              exact absurd habs (by simp)
            · rintro ⟨habs, -⟩
              exact absurd habs hgnil

theorem subsplit_cases (body title heading : Str) (max_chars : Nat) :
    (goodParas body = [] ∧ strip body = [] ∧
      _split_section_by_paragraphs body title heading max_chars = [strip body]) ∨
    (∃ grouping : List (List Str), grouping ≠ [] ∧
      (∀ q ∈ grouping, GoodGroup (pfxOf title heading) max_chars q) ∧
      grouping.flatten = goodParas body ∧
      _split_section_by_paragraphs body title heading max_chars
        = grouping.map (mkChunk (pfxOf title heading))) := by
  obtain ⟨ds, g', heq, hds, hg1, hg2, hflat, hiff⟩ :=
    foldl_subStep_spec (pfxOf title heading) max_chars (splitParas body) [] []
      (by simp) (fun h => absurd rfl h)
  rw [mkCur_nil, List.nil_append] at heq
  rw [List.nil_append] at hflat
  have hmain : _split_section_by_paragraphs body title heading max_chars =
      (if (if strip (mkCur (pfxOf title heading) g') ≠ [] ∧
              strip (mkCur (pfxOf title heading) g') ≠ strip (pfxOf title heading)
           then ds.map (mkChunk (pfxOf title heading)) ++
              [strip (mkCur (pfxOf title heading) g')]
           else ds.map (mkChunk (pfxOf title heading))) ≠ []
       then (if strip (mkCur (pfxOf title heading) g') ≠ [] ∧
                strip (mkCur (pfxOf title heading) g') ≠ strip (pfxOf title heading)
             then ds.map (mkChunk (pfxOf title heading)) ++
                [strip (mkCur (pfxOf title heading) g')]
             else ds.map (mkChunk (pfxOf title heading)))
       else [strip body]) := by
    simp only [_split_section_by_paragraphs]
    rw [heq]
  rcases eq_or_ne g' [] with hg' | hg'
  · subst hg'
    have hps : goodParasL (splitParas body) = [] := (hiff.mp rfl).2
    have hds0 : ds = [] := by
      cases hds2 : ds with
      | nil => rfl
      | cons q ds2 =>
        rw [hds2] at hflat
        have hq : q = [] := by
          have h0 : (q :: ds2).flatten ++ [] = [] := by rw [hflat, hps]
          simp only [List.append_nil, List.flatten_eq_nil_iff] at h0
          exact h0 q (by simp)
        have := (hds q (by rw [hds2]; simp)).1
        exact absurd hq this
    left
    have hgp : goodParas body = [] := hps
    refine ⟨hgp, strip_eq_nil_of_goodParas_nil hgp, ?_⟩
    rw [hmain, hds0, mkCur_nil]
    simp
  · right
    have hne1 : strip (mkCur (pfxOf title heading) g') ≠ [] :=
      strip_mkCur_ne_nil hg' hg1
    have hne2 : strip (mkCur (pfxOf title heading) g') ≠ strip (pfxOf title heading) :=
      strip_mkCur_ne hg' hg1
    refine ⟨ds ++ [g'], by simp, ?_, ?_, ?_⟩
    · intro q hq
      rcases List.mem_append.mp hq with h2 | h2
      · exact hds q h2
      · rw [List.mem_singleton.mp h2]
        exact ⟨hg', hg1, hg2 hg'⟩
    · have : goodParas body = goodParasL (splitParas body) := rfl
      rw [this, ← hflat]
      simp
    · rw [hmain, if_pos (c := _ ∧ _) ⟨hne1, hne2⟩]
      rw [if_pos (by simp)]
      simp [mkChunk]

theorem subsplit_ne_nil (body title heading : Str) (max_chars : Nat) :
    _split_section_by_paragraphs body title heading max_chars ≠ [] := by
  rcases subsplit_cases body title heading max_chars with ⟨-, -, h⟩ | ⟨gr, hgr, -, -, h⟩
  · rw [h]; simp
  · rw [h]; simpa using hgr

theorem subsplit_stripped {body title heading : Str} {max_chars : Nat} :
    ∀ c ∈ _split_section_by_paragraphs body title heading max_chars, strip c = c := by
  intro c hc
  rcases subsplit_cases body title heading max_chars with ⟨-, -, h⟩ | ⟨gr, -, -, -, h⟩
  · rw [h] at hc
    rw [List.mem_singleton.mp hc]
    exact strip_idem body
  · rw [h] at hc
    obtain ⟨q, hq, rfl⟩ := List.mem_map.mp hc
    exact strip_idem (mkCur (pfxOf title heading) q)

/-! Properties of `_split_by_headings` and `_extract_title`. -/

theorem isHeadingLine_strip_ne_nil {l : Str} (h : isHeadingLine l = true) :
    strip l ≠ [] := by
  rw [isHeadingLine, Bool.and_eq_true] at h
  have hpre : "## ".toList <+: l := List.isPrefixOf_iff_prefix.mp h.1
  obtain ⟨t, ht⟩ := hpre
  apply strip_ne_nil_of_nws
  refine nws_pos_iff.mpr ⟨'#', ?_, by decide⟩
  rw [← ht]
  exact List.mem_append.mpr (Or.inl (by decide))

theorem splitSectionsAux_props : ∀ (ls : List Str) (heading : Str) (acc : List Str),
    isHeadingLine heading = true →
    ∀ hb ∈ splitSectionsAux heading acc ls,
      strip hb.1 = hb.1 ∧ strip hb.2 = hb.2 ∧ hb.1 ≠ []
  | [], heading, acc, hh, hb, hmem => by
    have h1 : hb = (strip heading, strip (joinLines acc.reverse)) :=
      List.mem_singleton.mp hmem
    subst h1
    exact ⟨strip_idem _, strip_idem _, isHeadingLine_strip_ne_nil hh⟩
  | l :: ls, heading, acc, hh, hb, hmem => by
    by_cases hl : isHeadingLine l = true
    · simp only [splitSectionsAux] at hmem
      rw [if_pos hl] at hmem
      rcases List.mem_cons.mp hmem with rfl | h2
      · exact ⟨strip_idem _, strip_idem _, isHeadingLine_strip_ne_nil hh⟩
      · exact splitSectionsAux_props ls l [] hl hb h2
    · simp only [splitSectionsAux] at hmem
      rw [if_neg hl] at hmem
      exact splitSectionsAux_props ls heading (l :: acc) hh hb hmem

theorem split_by_headings_props (text : Str) :
    ∀ hb ∈ _split_by_headings text,
      strip hb.1 = hb.1 ∧ strip hb.2 = hb.2 ∧ (hb.1 ≠ [] ∨ hb.2 ≠ []) := by
  intro hb hmem
  simp only [_split_by_headings] at hmem
  rcases List.mem_append.mp hmem with h1 | h2
  · by_cases hP : strip (joinLines
        ((List.splitOn '\n' text).takeWhile (fun l => !isHeadingLine l))) ≠ []
    · rw [if_pos hP] at h1
      rw [List.mem_singleton.mp h1]
      exact ⟨rfl, strip_idem _, Or.inr hP⟩
    · rw [if_neg hP] at h1
      simp at h1
  · cases hdrop : (List.splitOn '\n' text).dropWhile (fun l => !isHeadingLine l) with
    | nil =>
      rw [hdrop] at h2
      exact absurd h2 (List.not_mem_nil hb)
    | cons l rest =>
      rw [hdrop] at h2
      have hl : isHeadingLine l = true := by
        have hne : (List.splitOn '\n' text).dropWhile (fun l => !isHeadingLine l) ≠ [] := by
          rw [hdrop]
          exact List.cons_ne_nil _ _
        have h3 := List.head_dropWhile_not (fun l => !isHeadingLine l)
          (List.splitOn '\n' text) hne
        have h4 : ((List.splitOn '\n' text).dropWhile
            (fun l => !isHeadingLine l)).head hne = l := by
          simp only [hdrop, List.head_cons]
        rw [h4] at h3
        simpa using h3
      have hr := splitSectionsAux_props rest l [] hl hb h2
      exact ⟨hr.1, hr.2.1, Or.inl hr.2.2⟩

theorem extract_title_stripped (text : Str) :
    strip (_extract_title text) = _extract_title text := by
  unfold _extract_title
  split
  · exact strip_idem _
  · rfl

/-! Properties of the chunk assembler. -/

theorem partsOf_props {title heading body : Str} (ht : strip title = title)
    (hh : strip heading = heading) (hb : strip body = body) :
    ∀ x ∈ partsOf title heading body, strip x = x ∧ x ≠ [] := by
  intro x hx
  have h1 : x ∈ (if title ≠ [] ∧ heading ≠ [] then [title] else []) ∨
      x ∈ (if heading ≠ [] then [heading] else []) ∨
      x ∈ (if body ≠ [] then [body] else []) := by
    simp only [partsOf, List.mem_append] at hx
    tauto
  rcases h1 with h | h | h
  · by_cases hc : title ≠ [] ∧ heading ≠ []
    · rw [if_pos hc] at h
      rw [List.mem_singleton.mp h]
      exact ⟨ht, hc.1⟩
    · rw [if_neg hc] at h
      simp at h
  · by_cases hc : heading ≠ []
    · rw [if_pos hc] at h
      rw [List.mem_singleton.mp h]
      exact ⟨hh, hc⟩
    · rw [if_neg hc] at h
      simp at h
  · by_cases hc : body ≠ []
    · rw [if_pos hc] at h
      rw [List.mem_singleton.mp h]
      exact ⟨hb, hc⟩
    · rw [if_neg hc] at h
      simp at h

theorem strip_fullTextOf {title heading body : Str} (ht : strip title = title)
    (hh : strip heading = heading) (hb : strip body = body) :
    strip (fullTextOf title heading body) = fullTextOf title heading body :=
  strip_joinSep (partsOf_props ht hh hb)

theorem fullTextOf_ne_nil {title heading body : Str} (ht : strip title = title)
    (hh : strip heading = heading) (hb : strip body = body)
    (hne : heading ≠ [] ∨ body ≠ []) :
    fullTextOf title heading body ≠ [] := by
  apply joinSep_ne_nil ?_ (fun p hp => (partsOf_props ht hh hb p hp).2)
  rcases hne with h | h
  · intro h0
    have hmm : heading ∈ partsOf title heading body := by
      simp only [partsOf, List.mem_append]
      refine Or.inl (Or.inr ?_)
      rw [if_pos h]
      simp
    rw [h0] at hmm
    simp at hmm
  · intro h0
    have hmm : body ∈ partsOf title heading body := by
      simp only [partsOf, List.mem_append]
      refine Or.inr ?_
      rw [if_pos h]
      simp
    rw [h0] at hmm
    simp at hmm

theorem assembleSection_eq (title : Str) (max_chars : Nat) (heading body : Str) :
    assembleSection title max_chars heading body =
      if (fullTextOf title heading body).length ≤ max_chars then
        [⟨fullTextOf title heading body, sectionName heading⟩]
      else (_split_section_by_paragraphs body title heading max_chars).map
        (fun t => ⟨t, sectionName heading⟩) := rfl

theorem mem_chunk_markdown {text : Str} {max_chars : Nat} {c : Chunk} :
    c ∈ chunk_markdown text max_chars ↔
      ∃ hb ∈ _split_by_headings text,
        c ∈ assembleSection (_extract_title text) max_chars hb.1 hb.2 := by
  simp [chunk_markdown]

theorem fullTextOf_explicit (title heading body : Str) :
    fullTextOf title heading body =
      (if title ≠ [] ∧ heading ≠ [] then title ++ nl2 else []) ++
      (if heading ≠ [] then heading ++ (if body ≠ [] then nl2 else []) else []) ++
      body := by
  by_cases hh : heading = []
  · by_cases hb : body = []
    · subst hh hb
      simp [fullTextOf, partsOf, joinSep]
    · subst hh
      simp [fullTextOf, partsOf, joinSep, hb]
  · by_cases ht : title = []
    · by_cases hb : body = []
      · subst hb
        simp [fullTextOf, partsOf, joinSep, hh, ht]
      · simp [fullTextOf, partsOf, joinSep, hh, ht, hb, List.append_assoc]
    · by_cases hb : body = []
      · subst hb
        simp [fullTextOf, partsOf, joinSep, hh, ht, List.append_assoc]
      · simp [fullTextOf, partsOf, joinSep, hh, ht, hb, List.append_assoc]

/-! Documents with no second-level heading. -/

theorem joinSep_eq_intercalate (sep : Str) : ∀ (l : List Str),
    joinSep sep l = sep.intercalate l
  | [] => by simp [joinSep, List.intercalate, List.intersperse]
  | [x] => by simp [joinSep, List.intercalate, List.intersperse]
  | x :: y :: xs => by
    have ih := joinSep_eq_intercalate sep (y :: xs)
    simp only [joinSep]
    rw [ih]
    simp [List.intercalate, List.intersperse, List.append_assoc]

theorem joinLines_splitOn (text : Str) :
    joinLines (List.splitOn '\n' text) = text := by
  rw [joinLines, joinSep_eq_intercalate]
  exact List.intercalate_splitOn text '\n'

theorem split_by_headings_noHeadings {text : Str} (h : noHeadings text)
    (hne : strip text ≠ []) :
    _split_by_headings text = [(([] : Str), strip text)] := by
  have htake : (List.splitOn '\n' text).takeWhile (fun l => !isHeadingLine l)
      = List.splitOn '\n' text := by
    rw [List.takeWhile_eq_self_iff]
    intro x hx
    simp [h x hx]
  have hdrop : (List.splitOn '\n' text).dropWhile (fun l => !isHeadingLine l) = [] := by
    rw [List.dropWhile_eq_nil_iff]
    intro x hx
    simp [h x hx]
  simp only [_split_by_headings, htake, hdrop, joinLines_splitOn]
  rw [if_pos hne]
  simp

theorem assembleSection_ne_nil (title : Str) (max_chars : Nat) (heading body : Str) :
    assembleSection title max_chars heading body ≠ [] := by
  rw [assembleSection_eq]
  by_cases h : (fullTextOf title heading body).length ≤ max_chars
  · rw [if_pos h]
    simp
  · rw [if_neg h]
    simpa using subsplit_ne_nil body title heading max_chars

/-! The decimal representation used for chunk identifiers. -/

theorem char_ofNat_digit_toNat :
    ∀ d : Nat, d < 10 → (Char.ofNat (48 + d)).toNat = 48 + d := by
  decide

theorem valRev_toDigitsRev : ∀ n : Nat, valRev (toDigitsRev n) = n := by
  intro n
  induction n using Nat.strong_induction_on with
  | _ n ih =>
    by_cases h : n < 10
    · unfold toDigitsRev
      rw [dif_pos h]
      simp [valRev, char_ofNat_digit_toNat n h]
    · unfold toDigitsRev
      rw [dif_neg h]
      have hd : n / 10 < n := Nat.div_lt_self (by omega) (by omega)
      simp only [valRev, char_ofNat_digit_toNat (n % 10) (by omega), ih _ hd]
      omega

theorem natRepr_inj {a b : Nat} (h : natRepr a = natRepr b) : a = b := by
  have h2 : toDigitsRev a = toDigitsRev b := by
    have h3 := congrArg List.reverse h
    simpa [natRepr] using h3
  have h4 := congrArg valRev h2
  rwa [valRev_toDigitsRev, valRev_toDigitsRev] at h4

theorem toDigitsRev_digits :
    ∀ n : Nat, ∀ c ∈ toDigitsRev n, 48 ≤ c.toNat ∧ c.toNat ≤ 57 := by
  intro n
  induction n using Nat.strong_induction_on with
  | _ n ih =>
    intro c hc
    by_cases h : n < 10
    · unfold toDigitsRev at hc
      rw [dif_pos h] at hc
      rw [List.mem_singleton.mp hc, char_ofNat_digit_toNat n h]
      omega
    · unfold toDigitsRev at hc
      rw [dif_neg h] at hc
      rcases List.mem_cons.mp hc with rfl | h2
      · rw [char_ofNat_digit_toNat (n % 10) (by omega)]
        omega
      · exact ih (n / 10) (Nat.div_lt_self (by omega) (by omega)) c h2

theorem digit_suffix_cancel :
    ∀ (d1 t1 d2 t2 : List Char),
      (∀ c ∈ d1, 48 ≤ c.toNat ∧ c.toNat ≤ 57) →
      (∀ c ∈ d2, 48 ≤ c.toNat ∧ c.toNat ≤ 57) →
      d1 ++ 'k' :: t1 = d2 ++ 'k' :: t2 → d1 = d2 ∧ t1 = t2
  | [], t1, [], t2, _, _, h => by
    simp only [List.nil_append, List.cons.injEq] at h
    exact ⟨rfl, h.2⟩
  | [], t1, c :: d2, t2, _, hd2, h => by
    simp only [List.nil_append, List.cons_append, List.cons.injEq] at h
    have hc := hd2 c (by simp)
    rw [← h.1] at hc
    have hk : ('k').toNat = 107 := by decide
    omega
  | c :: d1, t1, [], t2, hd1, _, h => by
    simp only [List.nil_append, List.cons_append, List.cons.injEq] at h
    have hc := hd1 c (by simp)
    rw [h.1] at hc
    have hk : ('k').toNat = 107 := by decide
    omega
  | c :: d1, t1, c2 :: d2, t2, hd1, hd2, h => by
    simp only [List.cons_append, List.cons.injEq] at h
    have hr := digit_suffix_cancel d1 t1 d2 t2
      (fun x hx => hd1 x (List.mem_cons_of_mem _ hx))
      (fun x hx => hd2 x (List.mem_cons_of_mem _ hx)) h.2
    exact ⟨by rw [h.1, hr.1], hr.2⟩

theorem mkChunkId_inj {r1 r2 : Str} {i1 i2 : Nat}
    (h : mkChunkId r1 i1 = mkChunkId r2 i2) : r1 = r2 ∧ i1 = i2 := by
  have hS : ("::chunk".toList).reverse
      = 'k' :: ('n' :: 'u' :: 'h' :: 'c' :: ':' :: ':' :: []) := by decide
  have hrev := congrArg List.reverse h
  simp only [mkChunkId, List.reverse_append, natRepr, List.reverse_reverse, hS,
    List.cons_append, List.append_assoc, List.nil_append] at hrev
  have hmain := digit_suffix_cancel (toDigitsRev i1)
    ('n' :: 'u' :: 'h' :: 'c' :: ':' :: ':' :: r1.reverse)
    (toDigitsRev i2) ('n' :: 'u' :: 'h' :: 'c' :: ':' :: ':' :: r2.reverse)
    (toDigitsRev_digits i1) (toDigitsRev_digits i2) (by simpa using hrev)
  constructor
  · have ht := hmain.2
    simp only [List.cons.injEq, true_and] at ht
    exact List.reverse_inj.mp ht
  · have hv := congrArg valRev hmain.1
    rwa [valRev_toDigitsRev, valRev_toDigitsRev] at hv

theorem chunkIds_cons (d : Str × Str) (docs : List (Str × Str)) (max_chars : Nat) :
    chunkIds (d :: docs) max_chars =
      (List.range (chunk_markdown d.2 max_chars).length).map (mkChunkId d.1) ++
        chunkIds docs max_chars := by
  simp [chunkIds]

theorem mem_chunkIds {b : Str} {docs : List (Str × Str)} {max_chars : Nat} :
    b ∈ chunkIds docs max_chars ↔
      ∃ e ∈ docs, ∃ i, i < (chunk_markdown e.2 max_chars).length ∧
        b = mkChunkId e.1 i := by
  simp only [chunkIds, List.mem_flatMap, List.mem_map, List.mem_range]
  constructor
  · rintro ⟨e, he, i, hi, rfl⟩
    exact ⟨e, he, i, hi, rfl⟩
  · rintro ⟨e, he, i, hi, rfl⟩
    exact ⟨e, he, i, hi, rfl⟩

theorem lstrip_pfxOf {title heading : Str} (ht : strip title = title)
    (hh : strip heading = heading) :
    lstrip (pfxOf title heading) = pfxOf title heading := by
  rw [pfxOf]
  by_cases h1 : title ≠ []
  · rw [if_pos h1]
    obtain ⟨c, t, hct, hcw⟩ := exists_head_of_stripped ht h1
    rw [hct]
    simp [lstrip, List.dropWhile_cons, hcw]
  · rw [if_neg h1, List.nil_append]
    by_cases h2 : heading ≠ []
    · rw [if_pos h2]
      obtain ⟨c, t, hct, hcw⟩ := exists_head_of_stripped hh h2
      rw [hct]
      simp [lstrip, List.dropWhile_cons, hcw]
    · rw [if_neg h2]
      rfl

/-! ### The claims -/

/-- C1 counterexample: with title `"# Ti"`, empty heading, body `"aa\n\nbb"`
and `max_chars = 7` (positive), the sub-splitter returns two sub-chunks of
length 8 > 7, even though every paragraph of the body has length 2 ≤ 7.  The
claim's size bound with its "a single paragraph alone exceeds the budget"
exception is therefore false: the excess comes from the repeated context
prefix, not from an oversized paragraph. -/
theorem C1_counterexample :
    0 < 7 ∧
    ((_split_section_by_paragraphs "aa\n\nbb".toList "# Ti".toList [] 7).all
      (fun c => c.length ≤ 7) = false) ∧
    ((splitParas "aa\n\nbb".toList).all (fun p => (strip p).length ≤ 7) = true) := by
  decide

/-- C1 (amended): every sub-chunk returned by the paragraph sub-splitter has
length at most max_chars, except sub-chunks consisting of the context prefix
plus a single paragraph kept whole (the form flushed when even
prefix+paragraph overflows the budget); a paragraph is never split or
truncated. -/
theorem C1_subchunk_size (body title heading : Str) (max_chars : Nat)
    (_hpos : 0 < max_chars) :
    ∀ c ∈ _split_section_by_paragraphs body title heading max_chars,
      c.length ≤ max_chars ∨
      ∃ p ∈ goodParas body, c = strip (pfxOf title heading ++ p ++ nl2) := by
  intro c hc
  rcases subsplit_cases body title heading max_chars with
    ⟨-, hsb, h⟩ | ⟨gr, -, hgg, hflat, h⟩
  · rw [h] at hc
    rw [List.mem_singleton.mp hc, hsb]
    left
    simp
  · rw [h] at hc
    obtain ⟨q, hq, rfl⟩ := List.mem_map.mp hc
    obtain ⟨hqne, hqgood, hqsize⟩ := hgg q hq
    rcases hqsize with hle | ⟨p, rfl⟩
    · left
      calc (mkChunk (pfxOf title heading) q).length
          ≤ (mkCur (pfxOf title heading) q).length := strip_length_le _
        _ ≤ max_chars := hle
    · right
      refine ⟨p, ?_, ?_⟩
      · rw [← hflat]
        exact List.mem_flatten_of_mem hq (by simp)
      · show strip (mkCur (pfxOf title heading) [p])
          = strip (pfxOf title heading ++ p ++ nl2)
        rw [mkCur_single]

/-- C1 witness at a concrete input. -/
theorem C1_subchunk_size_witness :
    0 < 7 ∧
    ("# Ti\n\naa".toList ∈
        _split_section_by_paragraphs "aa\n\nbb".toList "# Ti".toList [] 7 ∧
      ("# Ti\n\naa".toList.length ≤ 7 ∨
        ∃ p ∈ goodParas "aa\n\nbb".toList,
          "# Ti\n\naa".toList = strip (pfxOf "# Ti".toList [] ++ p ++ nl2))) :=
  ⟨by decide, by decide,
    C1_subchunk_size "aa\n\nbb".toList "# Ti".toList [] 7 (by decide)
      "# Ti\n\naa".toList (by decide)⟩

/-- C2: no paragraph is ever split across two sub-chunks: when the section
body has at least one trimmed non-empty paragraph, the paragraph list is
partitioned into consecutive non-empty groups, the returned sub-chunks are
exactly the groups' texts in order (so each paragraph lands wholly in exactly
one sub-chunk), and each paragraph occurs contiguously inside its group's
sub-chunk text. -/
theorem C2_paragraphs_not_split (body title heading : Str) (max_chars : Nat)
    (hne : goodParas body ≠ []) :
    ∃ grouping : List (List Str), grouping ≠ [] ∧ (∀ q ∈ grouping, q ≠ []) ∧
      grouping.flatten = goodParas body ∧
      _split_section_by_paragraphs body title heading max_chars
        = grouping.map (fun q => strip (pfxOf title heading ++ joinNl q)) ∧
      ∀ q ∈ grouping, ∀ p ∈ q,
        p <:+: strip (pfxOf title heading ++ joinNl q) := by
  rcases subsplit_cases body title heading max_chars with
    ⟨h0, -, -⟩ | ⟨gr, hgr, hgg, hflat, h⟩
  · exact absurd h0 hne
  · refine ⟨gr, hgr, fun q hq => (hgg q hq).1, hflat, h, ?_⟩
    intro q hq p hp
    obtain ⟨hqne, hqgood, -⟩ := hgg q hq
    have hs := strip_mkCur (pfxOf title heading) hqne hqgood
    show p <:+: strip (mkCur (pfxOf title heading) q)
    rw [hs]
    exact (infix_joinSep hp).trans (List.suffix_append _ _).isInfix

/-- C2 witness at a concrete input. -/
theorem C2_paragraphs_not_split_witness :
    goodParas "aa\n\nbb".toList ≠ [] ∧
    (∃ grouping : List (List Str), grouping ≠ [] ∧ (∀ q ∈ grouping, q ≠ []) ∧
      grouping.flatten = goodParas "aa\n\nbb".toList ∧
      _split_section_by_paragraphs "aa\n\nbb".toList "# Ti".toList [] 7
        = grouping.map (fun q => strip (pfxOf "# Ti".toList [] ++ joinNl q)) ∧
      ∀ q ∈ grouping, ∀ p ∈ q,
        p <:+: strip (pfxOf "# Ti".toList [] ++ joinNl q)) :=
  ⟨by decide, C2_paragraphs_not_split "aa\n\nbb".toList "# Ti".toList [] 7 (by decide)⟩

/-- C3: a section whose composed text fits within max_chars yields exactly
one chunk; its text is the blank-line join, in order, of the title (present
only when BOTH the extracted title and the heading are non-empty, so the
preamble never repeats the title), the heading (if non-empty) and the body
(if non-empty); its label is the heading with leading hash/space characters
stripped and trimmed, or the literal "(intro)" when the heading is empty. -/
theorem C3_direct_assembly (title heading body : Str) (max_chars : Nat)
    (hfit : (fullTextOf title heading body).length ≤ max_chars) :
    assembleSection title max_chars heading body =
      [⟨(if title ≠ [] ∧ heading ≠ [] then title ++ nl2 else []) ++
        (if heading ≠ [] then heading ++ (if body ≠ [] then nl2 else []) else []) ++
        body,
        if heading = [] then "(intro)".toList
        else strip (heading.dropWhile (fun c => c = '#' || c = ' '))⟩] := by
  have hname : sectionName heading =
      if heading = [] then "(intro)".toList
      else strip (heading.dropWhile (fun c => c = '#' || c = ' ')) := by
    rw [sectionName]
    by_cases h : heading = []
    · rw [if_neg (by simp [h]), if_pos h]
    · rw [if_pos h, if_neg h]
  rw [assembleSection_eq, if_pos hfit, hname, ← fullTextOf_explicit]

/-- C3 witness at a concrete input. -/
theorem C3_direct_assembly_witness :
    (fullTextOf [] "## A".toList "b".toList).length ≤ 1500 ∧
    assembleSection [] 1500 "## A".toList "b".toList
      = [⟨"## A\n\nb".toList, "A".toList⟩] :=
  ⟨by decide,
    (C3_direct_assembly [] "## A".toList "b".toList 1500 (by decide)).trans (by decide)⟩

/-- C4 counterexample: on the spec's example document with max_chars = 1500
the claimed output is wrong — the extracted title keeps its `"# "` marker
(`_extract_title` returns the whole line), so no chunk text starts with
`"Title"`. -/
theorem C4_counterexample :
    chunk_markdown
        "# Title\n\nIntro text.\n\n## Setup\n\nStep one.\n\nStep two.".toList 1500 ≠
      [⟨"Title\n\nIntro text.".toList, "(intro)".toList⟩,
       ⟨"Title\n\n## Setup\n\nStep one.\n\nStep two.".toList, "Setup".toList⟩] := by
  decide

/-- C4 (amended): chunking the example document with max_chars = 1500 yields
exactly 2 chunks, with the title line kept verbatim including its marker:
chunk 0 has text "# Title\n\nIntro text." and section "(intro)"; chunk 1 has
text "# Title\n\n## Setup\n\nStep one.\n\nStep two." and section "Setup". -/
theorem C4_example_output :
    chunk_markdown
        "# Title\n\nIntro text.\n\n## Setup\n\nStep one.\n\nStep two.".toList 1500 =
      [⟨"# Title\n\nIntro text.".toList, "(intro)".toList⟩,
       ⟨"# Title\n\n## Setup\n\nStep one.\n\nStep two.".toList, "Setup".toList⟩] := by
  decide

/-- C5: with trimmed title and heading (as produced by the pipeline), every
sub-chunk of a section processed by the paragraph sub-splitter begins with
the context prefix — title line plus blank line (if non-empty) followed by
heading line plus blank line (if non-empty) — except on the whole-section
fallback path, which returns the single trimmed body, unprefixed. -/
theorem C5_prefix_on_subchunks (body title heading : Str) (max_chars : Nat)
    (ht : strip title = title) (hh : strip heading = heading) :
    (goodParas body = [] →
      _split_section_by_paragraphs body title heading max_chars = [strip body]) ∧
    (goodParas body ≠ [] →
      ∀ c ∈ _split_section_by_paragraphs body title heading max_chars,
        pfxOf title heading <+: c) := by
  constructor
  · intro h0
    rcases subsplit_cases body title heading max_chars with
      ⟨-, -, h⟩ | ⟨gr, hgr, hgg, hflat, -⟩
    · exact h
    · exfalso
      rw [h0] at hflat
      cases gr with
      | nil => exact hgr rfl
      | cons q gr2 =>
        have hq : q = [] := by
          rw [List.flatten_eq_nil_iff] at hflat
          exact hflat q (by simp)
        exact (hgg q (by simp)).1 hq
  · intro h0 c hc
    rcases subsplit_cases body title heading max_chars with
      ⟨habs, -, -⟩ | ⟨gr, -, hgg, -, h⟩
    · exact absurd habs h0
    · rw [h] at hc
      obtain ⟨q, hq, rfl⟩ := List.mem_map.mp hc
      obtain ⟨hqne, hqgood, -⟩ := hgg q hq
      have hs := strip_mkCur (pfxOf title heading) hqne hqgood
      show pfxOf title heading <+: strip (mkCur (pfxOf title heading) q)
      rw [hs, lstrip_pfxOf ht hh]
      exact List.prefix_append _ _

/-- C5 witness at a concrete input. -/
theorem C5_prefix_on_subchunks_witness :
    strip "# Ti".toList = "# Ti".toList ∧ strip ([] : Str) = [] ∧
    ((goodParas "aa\n\nbb".toList = [] →
      _split_section_by_paragraphs "aa\n\nbb".toList "# Ti".toList [] 7
        = [strip "aa\n\nbb".toList]) ∧
    (goodParas "aa\n\nbb".toList ≠ [] →
      ∀ c ∈ _split_section_by_paragraphs "aa\n\nbb".toList "# Ti".toList [] 7,
        pfxOf "# Ti".toList [] <+: c)) :=
  ⟨by decide, by decide,
    C5_prefix_on_subchunks "aa\n\nbb".toList "# Ti".toList [] 7 (by decide) (by decide)⟩

/-- C6 counterexample: the document "## Hi" with the positive budget
max_chars = 1 produces exactly one chunk whose text is empty — the oversized
heading-only section has an empty body, and the sub-splitter's fallback
returns the stripped empty body as a chunk. -/
theorem C6_counterexample :
    0 < 1 ∧ chunk_markdown "## Hi".toList 1 = [⟨[], "Hi".toList⟩] := by
  decide

/-- C6 (amended): no chunk of chunk_markdown is whitespace-only without being
empty (every chunk text equals its stripped form), and a chunk text can be
empty only when its section has an empty body while the composed
title/heading text alone exceeds max_chars — then the fallback emits the
stripped empty body instead of falling back to the non-empty heading. -/
theorem C6_no_blank_chunks (text : Str) (max_chars : Nat) :
    ∀ c ∈ chunk_markdown text max_chars,
      strip c.text = c.text ∧
      (c.text = [] →
        ∃ heading, (heading, ([] : Str)) ∈ _split_by_headings text ∧
          max_chars < (fullTextOf (_extract_title text) heading []).length) := by
  intro c hc
  obtain ⟨hb, hmem, hcs⟩ := mem_chunk_markdown.mp hc
  obtain ⟨hsh, hsb, hor⟩ := split_by_headings_props text hb hmem
  have hst := extract_title_stripped text
  rw [assembleSection_eq] at hcs
  by_cases hfit : (fullTextOf (_extract_title text) hb.1 hb.2).length ≤ max_chars
  · rw [if_pos hfit] at hcs
    have hc1 : c = ⟨fullTextOf (_extract_title text) hb.1 hb.2, sectionName hb.1⟩ :=
      List.mem_singleton.mp hcs
    subst hc1
    exact ⟨strip_fullTextOf hst hsh hsb,
      fun habs => absurd habs (fullTextOf_ne_nil hst hsh hsb hor)⟩
  · rw [if_neg hfit] at hcs
    obtain ⟨s, hs, rfl⟩ := List.mem_map.mp hcs
    refine ⟨subsplit_stripped s hs, fun habs => ?_⟩
    rcases subsplit_cases hb.2 (_extract_title text) hb.1 max_chars with
      ⟨-, hsbnil, h⟩ | ⟨gr, -, hgg, -, h⟩
    · have hbnil : hb.2 = [] := by rw [← hsb]; exact hsbnil
      rw [hbnil] at hfit
      refine ⟨hb.1, ?_, Nat.lt_of_not_le hfit⟩
      rw [← hbnil]
      exact hmem
    · rw [h] at hs
      obtain ⟨q, hq, rfl⟩ := List.mem_map.mp hs
      obtain ⟨hqne, hqgood, -⟩ := hgg q hq
      exact absurd habs (strip_mkCur_ne_nil hqne hqgood)

/-- C6 (amended) witness at a concrete input. -/
theorem C6_no_blank_chunks_witness :
    (⟨"hello".toList, "(intro)".toList⟩ : Chunk) ∈ chunk_markdown "hello".toList 1500 ∧
    (strip (Chunk.text ⟨"hello".toList, "(intro)".toList⟩)
        = Chunk.text ⟨"hello".toList, "(intro)".toList⟩ ∧
      (Chunk.text ⟨"hello".toList, "(intro)".toList⟩ = [] →
        ∃ heading, (heading, ([] : Str)) ∈ _split_by_headings "hello".toList ∧
          1500 < (fullTextOf (_extract_title "hello".toList) heading []).length)) :=
  ⟨by decide,
    C6_no_blank_chunks "hello".toList 1500 ⟨"hello".toList, "(intro)".toList⟩ (by decide)⟩

/-- C7 counterexample: the empty document contains no "## " heading line, yet
the section splitter returns zero sections (not exactly one) and
chunk_markdown returns zero chunks (not at least one). -/
theorem C7_counterexample :
    ((List.splitOn '\n' ([] : Str)).all (fun l => !isHeadingLine l) = true) ∧
    _split_by_headings [] = [] ∧ chunk_markdown [] 1500 = [] := by
  decide

/-- C7 (amended): a document with no second-level heading line whose text is
not whitespace-only yields exactly one section — empty heading, body the
whole trimmed text — and at least one chunk; a whitespace-only document with
no headings instead yields zero sections and zero chunks. -/
theorem C7_no_headings (text : Str) (max_chars : Nat) (h : noHeadings text)
    (hne : strip text ≠ []) :
    _split_by_headings text = [(([] : Str), strip text)] ∧
    chunk_markdown text max_chars ≠ [] := by
  have hsec := split_by_headings_noHeadings h hne
  refine ⟨hsec, ?_⟩
  rw [chunk_markdown, hsec]
  simp only [List.flatMap_cons, List.flatMap_nil, List.append_nil]
  exact assembleSection_ne_nil _ _ _ _

/-- C7 (amended) witness at a concrete input. -/
theorem C7_no_headings_witness :
    noHeadings "hi".toList ∧ strip "hi".toList ≠ [] ∧
    (_split_by_headings "hi".toList = [(([] : Str), strip "hi".toList)] ∧
      chunk_markdown "hi".toList 1500 ≠ []) :=
  ⟨by unfold noHeadings; decide, by decide,
    C7_no_headings "hi".toList 1500 (by unfold noHeadings; decide) (by decide)⟩

/-- C8: chunk_markdown is deterministic — it is a pure function of the
document text and max_chars alone, with no dependence on any other state, so
chunking the same document twice with the same max_chars yields identical
chunk lists. -/
theorem C8_deterministic (text : Str) (max_chars : Nat) :
    chunk_markdown text max_chars = chunk_markdown text max_chars := rfl

/-- C9: for every document list whose relative paths are pairwise distinct,
the chunk identifiers `rel::chunk<i>` produced over the whole run are
pairwise distinct. -/
theorem C9_chunk_ids_distinct (docs : List (Str × Str)) (max_chars : Nat)
    (h : (docs.map Prod.fst).Pairwise (fun a b => a ≠ b)) :
    (chunkIds docs max_chars).Pairwise (fun a b => a ≠ b) := by
  induction docs with
  | nil => simp [chunkIds]
  | cons d docs ih =>
    rw [chunkIds_cons]
    rw [List.map_cons, List.pairwise_cons] at h
    refine List.pairwise_append.mpr ⟨?_, ih h.2, ?_⟩
    · have hinj : Function.Injective (mkChunkId d.1) :=
        fun i1 i2 hi => (mkChunkId_inj hi).2
      exact (List.nodup_range _).map hinj
    · intro a ha b hb
      obtain ⟨i, -, rfl⟩ := List.mem_map.mp ha
      obtain ⟨e, he, j, -, rfl⟩ := mem_chunkIds.mp hb
      intro habs
      have := (mkChunkId_inj habs).1
      exact h.1 e.1 (List.mem_map_of_mem Prod.fst he) this

/-- C9 witness at a concrete input. -/
theorem C9_chunk_ids_distinct_witness :
    ((([("a".toList, "x".toList), ("b".toList, "y".toList)] :
        List (Str × Str)).map Prod.fst).Pairwise (fun a b => a ≠ b)) ∧
    (chunkIds [("a".toList, "x".toList), ("b".toList, "y".toList)] 1500).Pairwise
      (fun a b => a ≠ b) :=
  ⟨by decide,
    C9_chunk_ids_distinct [("a".toList, "x".toList), ("b".toList, "y".toList)] 1500
      (by decide)⟩

/-- C10: every chunk text produced by chunk_markdown is already trimmed — it
equals its own stripped form — on the direct assembly path, the paragraph
sub-splitting path, and the fallback. -/
theorem C10_chunks_trimmed (text : Str) (max_chars : Nat) :
    ∀ c ∈ chunk_markdown text max_chars, strip c.text = c.text := by
  intro c hc
  obtain ⟨hb, hmem, hcs⟩ := mem_chunk_markdown.mp hc
  obtain ⟨hsh, hsb, -⟩ := split_by_headings_props text hb hmem
  have hst := extract_title_stripped text
  rw [assembleSection_eq] at hcs
  by_cases hfit : (fullTextOf (_extract_title text) hb.1 hb.2).length ≤ max_chars
  · rw [if_pos hfit] at hcs
    rw [List.mem_singleton.mp hcs]
    exact strip_fullTextOf hst hsh hsb
  · rw [if_neg hfit] at hcs
    obtain ⟨s, hs, rfl⟩ := List.mem_map.mp hcs
    exact subsplit_stripped s hs

/-- C10 witness at a concrete input. -/
theorem C10_chunks_trimmed_witness :
    (⟨"hello".toList, "(intro)".toList⟩ : Chunk) ∈ chunk_markdown "hello".toList 1500 ∧
    strip (Chunk.text ⟨"hello".toList, "(intro)".toList⟩)
      = Chunk.text ⟨"hello".toList, "(intro)".toList⟩ :=
  ⟨by decide,
    C10_chunks_trimmed "hello".toList 1500 ⟨"hello".toList, "(intro)".toList⟩ (by decide)⟩

end Ingest
